import Mathlib

/- Verification model of the aggregation-and-retrieval core of the venue
assistant repository: document indexing (src/utils/pdfProcessor.js),
the calendar event store (src/utils/calendarFetcher.js together with the
dataStorage cache helpers) and the specification registry
(src/utils/SpecificationManager.js).

Modelling conventions.  JavaScript strings are Lean `String`s; JS numbers
appearing in the modelled code are integral (quantities, page numbers,
millisecond timestamps, day counts) and become `Nat`/`Int`; JS objects used
as string-keyed maps become association lists that preserve insertion
order; fallible steps return `Option` or `Except`.  `Date` values are civil
dates; the JS runtime is assumed to run in the UTC timezone, so that
`toISOString` agrees with the civil date handed to the `Date` constructor.
The host's unconstrained `new Date(string)` parser (implementation-defined
for non-ISO inputs) is a parameter wherever the source falls back to it. -/

namespace VenueCore

/-- Substring search on character lists: `infixOfL need hay` is true when
`need` occurs contiguously inside `hay`.  This models
`String.prototype.includes` for the ASCII text the source works with. -/
def infixOfL (need : List Char) : List Char → Bool
  | [] => need.isEmpty
  | c :: t => need.isPrefixOf (c :: t) || infixOfL need t

/-- Model of `s.includes(sub)` from JavaScript. -/
def jsIncludes (s sub : String) : Bool :=
  infixOfL sub.toList s.toList

/-- Gregorian leap-year test, as used by the JS `Date` object. -/
def isLeap (y : Nat) : Bool :=
  y % 4 == 0 && (y % 100 != 0 || y % 400 == 0)

/-- Number of days in month `m` (1-12) of year `y`. -/
def daysInMonth (y m : Nat) : Nat :=
  if m = 2 then (if isLeap y then 29 else 28)
  else if m = 4 ∨ m = 6 ∨ m = 9 ∨ m = 11 then 30
  else 31

/-- A civil calendar date, the value carried by a valid JS `Date` at UTC
midnight (no time-of-day component, as in the source's canonical dates). -/
structure Date where
  year : Nat
  month : Nat
  day : Nat
deriving DecidableEq, Repr

/-- A date is valid when its month and day are in calendar range; the JS
`Date` constructor yields an Invalid Date outside these ranges for the
date-only strings the source builds. -/
def validDate (d : Date) : Bool :=
  1 ≤ d.month && d.month ≤ 12 && 1 ≤ d.day && d.day ≤ daysInMonth d.year d.month

/-- Days since the Unix epoch (1970-01-01) of a civil date, following the
standard civil-from-days/days-from-civil correspondence.  This is
`Date.getTime() / 86400000` for a date constructed at UTC midnight. -/
def epochDays (dt : Date) : Int :=
  let y : Int := if dt.month ≤ 2 then (dt.year : Int) - 1 else (dt.year : Int)
  let era : Int := (if 0 ≤ y then y else y - 399) / 400
  let yoe : Int := y - era * 400
  let mp : Nat := (dt.month + 9) % 12
  let doy : Nat := (153 * mp + 2) / 5 + dt.day - 1
  let doe : Int := yoe * 365 + yoe / 4 - yoe / 100 + (doy : Int)
  era * 146097 + doe - 719468

/-- Millisecond timestamp of a civil date at UTC midnight: the value of
`new Date(canonicalString).getTime()` in the source. -/
def getTimeMs (dt : Date) : Int :=
  epochDays dt * 86400000

/-- Civil date of a day count since the Unix epoch (inverse of `epochDays`
for non-negative day counts), used to model `toISOString` on dates the
fallback generator builds by day stepping. -/
def civilFromDays (z0 : Nat) : Date :=
  let z := z0 + 719468
  let era := z / 146097
  let doe := z % 146097
  let yoe := (doe - doe / 1460 + doe / 36524 - doe / 146096) / 365
  let y := yoe + era * 400
  let doy := doe - (365 * yoe + yoe / 4 - yoe / 100)
  let mp := (5 * doy + 2) / 153
  let d := doy - (153 * mp + 2) / 5 + 1
  let m := if mp < 10 then mp + 3 else mp - 9
  ⟨if m ≤ 2 then y + 1 else y, m, d⟩

/-- Numeric value of a list of decimal digit characters. -/
def natOfDigits (l : List Char) : Nat :=
  l.foldl (fun acc c => acc * 10 + (c.toNat - 48)) 0

/-- Two-digit zero padding, as `toISOString` renders months and days. -/
def pad2 (n : Nat) : String :=
  if n < 10 then "0" ++ toString n else toString n

/-- Four-digit zero padding, as `toISOString` renders years. -/
def pad4 (n : Nat) : String :=
  if n < 10 then "000" ++ toString n
  else if n < 100 then "00" ++ toString n
  else if n < 1000 then "0" ++ toString n
  else toString n

/-- Canonical serialization of a date: `date.toISOString().split('T')[0]`
under the UTC runtime assumption. -/
def toISODate (dt : Date) : String :=
  pad4 dt.year ++ "-" ++ pad2 dt.month ++ "-" ++ pad2 dt.day

/-- Strict parse of a canonical `YYYY-MM-DD` string back into a civil date:
the behaviour of `new Date(s)` on the canonical date strings the source
stores (Invalid Date, i.e. `none`, when the shape or the calendar ranges
are wrong). -/
def parseISODate (s : String) : Option Date :=
  match s.toList with
  | [y1, y2, y3, y4, c5, m1, m2, c8, d1, d2] =>
    if (c5 == '-') && (c8 == '-') &&
        [y1, y2, y3, y4, m1, m2, d1, d2].all Char.isDigit then
      let y := natOfDigits [y1, y2, y3, y4]
      let m := natOfDigits [m1, m2]
      let d := natOfDigits [d1, d2]
      if validDate ⟨y, m, d⟩ then some ⟨y, m, d⟩ else none
    else none
  | _ => none

/-- A normalized calendar event record as built by `parseCalendarEvents`
and `getFallbackEvents` in calendarFetcher.js.  `date` is the canonical
`YYYY-MM-DD` serialization, or the empty string when the scraped date text
could not be parsed.  Plain parsed events carry `isFallback := false`
(the JS objects simply lack the field). -/
structure Event where
  title : String
  date : String
  rawDateText : String
  time : String
  description : String
  ticketsAvailable : Bool
  url : String
  isFallback : Bool
deriving DecidableEq, Repr

/-- Test for the regex `^\d{4}-\d{2}-\d{2}$` guarding the pass-through
branch of `standardizeDate`. -/
def isCanonicalForm (s : String) : Bool :=
  match s.toList with
  | [a, b, c, d, s1, e, f, s2, g, h] =>
    a.isDigit && b.isDigit && c.isDigit && d.isDigit && s1 == '-' &&
    e.isDigit && f.isDigit && s2 == '-' && g.isDigit && h.isDigit
  | _ => false

/-- Test for `dateString.includes('/') || dateString.includes('-')`. -/
def containsSep (s : String) : Bool :=
  s.toList.any (fun c => c == '/' || c == '-')

/-- Split on every single occurrence of `/` or `-`, the behaviour of
JavaScript `dateString.split(/[-\/]/)` (consecutive separators produce
empty parts). -/
def splitSepsAux : List Char → List (List Char)
  | [] => [[]]
  | c :: rest =>
    if c == '/' || c == '-' then [] :: splitSepsAux rest
    else
      match splitSepsAux rest with
      | [] => [[c]]
      | h :: t => (c :: h) :: t

/-- String-level wrapper of `splitSepsAux`. -/
def splitSeps (s : String) : List String :=
  (splitSepsAux s.toList).map List.asString

/-- Numeric read of a date-string component: defined when the component
consists solely of decimal digits. -/
def parseNatStr (s : String) : Option Nat :=
  if s.toList ≠ [] ∧ s.toList.all Char.isDigit then some (natOfDigits s.toList) else none

/-- The JS `Date` built from a template `new Date(year + "-" + month +
"-" + day)` with string components taken from a split date string:
valid exactly when all components are numeric and name a real calendar
date (otherwise the constructor yields an Invalid Date). -/
def mkJsDate (ys ms ds : String) : Option Date :=
  match parseNatStr ys, parseNatStr ms, parseNatStr ds with
  | some y, some m, some d =>
    if validDate ⟨y, m, d⟩ then some ⟨y, m, d⟩ else none
  | _, _, _ => none

/-- Model of `standardizeDate` from calendarFetcher.js.  `jsParse` is the
host's unconstrained `new Date(string)` parser used by the branches that
hand the whole string to the `Date` constructor; returns the canonical
serialization of the parsed date, or `""` for an invalid date, exactly as
the source returns `''`. -/
def standardizeDate (jsParse : String → Option Date) (dateString : String) : String :=
  if isCanonicalForm dateString then dateString
  else
    let parsed : Option Date :=
      if containsSep dateString then
        match splitSeps dateString with
        | p0 :: p1 :: p2 :: _ =>
          if p2.length == 4 then
            match mkJsDate p2 p1 p0 with
            | some ukDate => some ukDate
            | none => mkJsDate p2 p0 p1
          else jsParse dateString
        | _ => jsParse dateString
      else jsParse dateString
    match parsed with
    | none => ""
    | some d => toISODate d

/-- Model of `findNearbyEvents(events, targetDate, dayRange)`: keep the
events whose date text is non-empty, parses, and whose millisecond
timestamp is within `dayRange` days of the target's.  An unparseable
target timestamp is NaN in the source, and every comparison against NaN
is false. -/
def findNearbyEvents (events : List Event) (targetDate : String) (dayRange : Nat) : List Event :=
  let targetTs : Option Int := (parseISODate targetDate).map getTimeMs
  events.filter (fun e =>
    if e.date = "" then false
    else
      match targetTs, parseISODate e.date with
      | some t, some d => (getTimeMs d - t).natAbs ≤ dayRange * 86400000
      | _, _ => false)

/-- Result of `getEventForDate`, mirroring the object shapes the source
returns on each branch. -/
inductive EventResult where
  | invalidFormat (message : String)
  | exactMatch (event : Event)
  | nearbyMatch (events : List Event)
  | notFound (message : String)
deriving DecidableEq, Repr

/-- Model of `getEventForDate(dateString)` from calendarFetcher.js, with
the (cache-aware) fetched event sequence passed explicitly. -/
def getEventForDate (jsParse : String → Option Date) (events : List Event)
    (dateString : String) : EventResult :=
  let standardDate := standardizeDate jsParse dateString
  if standardDate = "" then .invalidFormat "Invalid date format"
  else
    match events.find? (fun e => e.date == standardDate) with
    | some e => .exactMatch e
    | none =>
      let nearby := findNearbyEvents events standardDate 3
      if nearby.isEmpty then .notFound "No events found for this date"
      else .nearbyMatch nearby

/-- First day on or after `today` (a day count since the epoch) whose
day-of-week is Friday; day 0 (1970-01-01) was a Thursday, so day `d` has
day-of-week `(d + 4) % 7` and Friday is 5.  This is the value of the
`while (date.getDay() !== 5)` loop in `getFallbackEvents`. -/
def nextFridayOnOrAfter (today : Nat) : Nat :=
  today + (5 + 7 - (today + 4) % 7) % 7

/-- The ten day numbers `getFallbackEvents` visits: five Friday/Saturday
pairs, a week apart, starting from the next Friday on or after today. -/
def fallbackDays (today : Nat) : List Nat :=
  let f := nextFridayOnOrAfter today
  [f, f + 1, f + 7, f + 8, f + 14, f + 15, f + 21, f + 22, f + 28, f + 29]

/-- Month names as rendered by `toLocaleDateString('en-GB', { day:
'numeric', month: 'long', year: 'numeric' })`. -/
def monthLongName (m : Nat) : String :=
  match m with
  | 1 => "January" | 2 => "February" | 3 => "March" | 4 => "April"
  | 5 => "May" | 6 => "June" | 7 => "July" | 8 => "August"
  | 9 => "September" | 10 => "October" | 11 => "November" | 12 => "December"
  | _ => ""

/-- One fallback event for day number `d`, as built in the `map` of
`getFallbackEvents`. -/
def mkFallbackEvent (d : Nat) : Event :=
  let isFriday := (d + 4) % 7 == 5
  let dt := civilFromDays d
  let dateStr := toISODate dt
  { title := if isFriday then "Friday Night Live at Studio 338 (" ++ dateStr ++ ")"
             else "Saturday Sessions (" ++ dateStr ++ ")"
    date := dateStr
    rawDateText := toString dt.day ++ " " ++ monthLongName dt.month ++ " " ++ toString dt.year
    time := if isFriday then "22:00 - 04:00" else "21:00 - 06:00"
    description := "Join us for an amazing night at Studio 338 with world-class music and entertainment."
    ticketsAvailable := true
    url := ""
    isFallback := true }

/-- Model of `getFallbackEvents()` with "today" passed as an epoch day
count: the deterministic sequence of five Friday/Saturday event pairs. -/
def getFallbackEvents (today : Nat) : List Event :=
  (fallbackDays today).map mkFallbackEvent

/-- The in-session (and persisted) calendar cache shape: an event sequence
plus a fetch timestamp in milliseconds (`none` models a null
`lastFetched`). -/
structure SessionCache where
  events : List Event
  lastFetched : Option Nat
deriving DecidableEq, Repr

/-- The freshness test `inMemorySessionCache.events.length > 0 &&
inMemorySessionCache.lastFetched && (Date.now() - lastFetched < 3600000)`;
a zero timestamp is falsy in JS and fails the test, and JS negative
subtraction results compare below the TTL just as truncated `Nat`
subtraction does. -/
def sessionFresh (session : SessionCache) (nowMs : Nat) : Bool :=
  !session.events.isEmpty &&
    (match session.lastFetched with
     | some t => t != 0 && nowMs - t < 3600000
     | none => false)

/-- The body of `fetchAllEvents` after the durable-cache lookup misses:
in-session cache if fresh, else the network outcome.  `fetchOutcome` is
the parsed event sequence of a successful fetch (`parseCalendarEvents`
applied to the retrieved HTML) and `none` a fetch failure; on success the
events are cached in session, on failure a non-empty stale session cache
is returned unchanged, else the fallback generator runs. -/
def fetchAllEventsAux (session : SessionCache) (nowMs todayDays : Nat)
    (fetchOutcome : Option (List Event)) : List Event × SessionCache :=
  if sessionFresh session nowMs then (session.events, session)
  else
    match fetchOutcome with
    | some events => (events, ⟨events, some nowMs⟩)
    | none =>
      if !session.events.isEmpty then (session.events, session)
      else (getFallbackEvents todayDays, session)

/-- Model of `fetchAllEvents()` from calendarFetcher.js.  `stored` is the
durable-cache read (already expiry-checked by `getCalendarCache`, so
`none` covers both absence and expiry); a stored hit with a non-empty
event list is returned and synced into the session cache. -/
def fetchAllEvents (stored : Option SessionCache) (session : SessionCache)
    (nowMs todayDays : Nat) (fetchOutcome : Option (List Event)) :
    List Event × SessionCache :=
  match stored with
  | some sc =>
    if !sc.events.isEmpty then (sc.events, sc)
    else fetchAllEventsAux session nowMs todayDays fetchOutcome
  | none => fetchAllEventsAux session nowMs todayDays fetchOutcome

/-- Comparison `a > b` on JS numbers that may be NaN (`none`): any
comparison involving NaN is false. -/
def jsGTm : Option Int → Option Int → Bool
  | some a, some b => decide (b < a)
  | _, _ => false

/-- Stable insertion of `x` into a list: `x` goes after every element `y`
with `le y x`, which is precisely where a stable sort with a consistent
comparator places a later-arriving element. -/
def insertOrdered {α : Type} (le : α → α → Bool) (x : α) : List α → List α
  | [] => [x]
  | y :: ys => if le y x then y :: insertOrdered le x ys else x :: y :: ys

/-- Stable sort by repeated ordered insertion, processing the input left
to right: the model of `Array.prototype.sort` (stable per the language
specification) for a consistent comparator, with `le a b` meaning the
comparator allows `a` to stay before `b` (comparator value `<= 0` or
NaN). -/
def stableSort {α : Type} (le : α → α → Bool) (l : List α) : List α :=
  l.foldl (fun acc x => insertOrdered le x acc) []

/-- The event comparator `(a, b) => new Date(b.date) - new Date(a.date)`
read as a may-stay-before relation: `a` may precede `b` unless `b`'s date
is strictly newer (descending date order; NaN dates compare as equal). -/
def eventDateLe (a b : Event) : Bool :=
  !(jsGTm ((parseISODate b.date).map getTimeMs) ((parseISODate a.date).map getTimeMs))

/-- The fields `parseCalendarEvents` reads off one event-like DOM element,
with `none` for an absent nested selector match; `fullText` is
`element.textContent`. -/
structure RawEventElement where
  title : Option String
  dateText : Option String
  timeText : Option String
  description : Option String
  fullText : String
  linkHref : Option String
deriving DecidableEq, Repr

/-- The idiom `querySelector(...)?.textContent.trim() || dflt`: a missing
element or whitespace-only text yields the default. -/
def textOrDefault (field : Option String) (dflt : String) : String :=
  match field with
  | none => dflt
  | some t => if t.trim = "" then dflt else t.trim

/-- One scraped event record, as pushed by the element loop of
`parseCalendarEvents`; `pd` is `parseCalendarDate`, which returns `""`
for unparseable date text. -/
def mkScrapedEvent (pd : String → String) (el : RawEventElement) : Event :=
  { title := textOrDefault el.title "Untitled Event"
    date := pd (textOrDefault el.dateText "")
    rawDateText := textOrDefault el.dateText ""
    time := textOrDefault el.timeText ""
    description := textOrDefault el.description ""
    ticketsAvailable := jsIncludes el.fullText.toLower "tickets" ||
                        jsIncludes el.fullText.toLower "book"
    url := (el.linkHref).getD ""
    isFallback := false }

/-- Model of `parseCalendarEvents(htmlContent)` from calendarFetcher.js,
with the DOM selection already performed (one `RawEventElement` per
matched element) and the date normalizer `pd` a parameter: every element
yields exactly one event (unparseable dates are kept with an empty date,
not dropped), the list is sorted descending by date, and an empty parse
is replaced wholesale by the fallback generator. -/
def parseCalendarEvents (pd : String → String) (today : Nat)
    (elements : List RawEventElement) : List Event :=
  let events := stableSort eventDateLe (elements.map (mkScrapedEvent pd))
  if events.isEmpty then getFallbackEvents today else events

/-- One equipment regex match of the pattern
`(\d+)\s+x\s+([A-Za-z0-9\s&\-]+)(?:\s+\(([^)]+)\))?` from
`extractEquipmentSpecs`: the captured quantity, the trimmed captured
name, and the trimmed spec capture (`""` when the optional group did not
participate). -/
structure EqMatch where
  quantity : Nat
  name : String
  spec : String
deriving DecidableEq, Repr

/-- An entry of `knowledgeBase.equipment`. -/
structure EquipEntry where
  quantity : Nat
  specifications : String
  pageReferences : List Nat
deriving DecidableEq, Repr

/-- `knowledgeBase.equipment` as an insertion-ordered association list. -/
abbrev EquipMap := List (String × EquipEntry)

/-- Property read `knowledgeBase.equipment[name]`. -/
def lookupEquip (name : String) (m : EquipMap) : Option EquipEntry :=
  (m.find? (fun p => p.1 == name)).map Prod.snd

/-- Push `page` onto the `pageReferences` of the entry keyed `name`. -/
def addPageRef (name : String) (page : Nat) (m : EquipMap) : EquipMap :=
  m.map (fun p =>
    if p.1 == name then (p.1, { p.2 with pageReferences := p.2.pageReferences ++ [page] })
    else p)

/-- The body of the match loop of `extractEquipmentSpecs`: an unseen name
creates an entry fixing quantity and specification with the match's page
as its first reference; a seen name only appends the page if it is not
already referenced. -/
def equipStep (page : Nat) (m : EquipMap) (mt : EqMatch) : EquipMap :=
  match lookupEquip mt.name m with
  | none => m ++ [(mt.name, ⟨mt.quantity, mt.spec, [page]⟩)]
  | some e => if page ∈ e.pageReferences then m else addPageRef mt.name page m

/-- Model of `extractEquipmentSpecs(text, pageNum)`: fold the page's regex
matches, in order, into the equipment map. -/
def extractEquipmentSpecs (pageMatches : List EqMatch) (page : Nat) (m : EquipMap) : EquipMap :=
  pageMatches.foldl (equipStep page) m

/-- The per-page `processPageContent` loop of `extractPdfContent`,
restricted to its equipment component: pages are processed in order and
numbered from 1. -/
def processEquipmentPages (pages : List (List EqMatch)) : EquipMap :=
  pages.enum.foldl (fun m pr => extractEquipmentSpecs pr.2 (pr.1 + 1) m) []

/-- All matches of a document flattened in processing order, each tagged
with its 1-based page number. -/
def flatMatches (pages : List (List EqMatch)) : List (Nat × EqMatch) :=
  (pages.enum.map (fun pr => pr.2.map (fun mt => (pr.1 + 1, mt)))).flatten

/-- A categorized passage of `knowledgeBase.specifications`. -/
structure SpecEntry where
  content : String
  pageReference : Nat
  keyword : String
deriving DecidableEq, Repr

/-- The fixed category taxonomy and keyword lists of pdfProcessor.js. -/
def CATEGORIES : List (String × List String) :=
  [("SOUND", ["sound", "audio", "speaker", "pa", "microphone", "mixer", "cdj", "technics"]),
   ("LIGHTING", ["lighting", "light", "strobe", "beam", "led", "rgb"]),
   ("VIDEO", ["video", "screen", "projection", "projector", "led screen"]),
   ("STAGE", ["stage", "dimensions", "truss", "podium"]),
   ("POWER", ["power", "electricity", "amp", "volt"]),
   ("SPECIAL_FX", ["fx", "effect", "smoke", "pyro", "confetti", "co2"]),
   ("RESTRICTIONS", ["restriction", "limit", "maximum", "minimum", "db", "decibel"])]

/-- The per-category body of `categorizeSectionContent`: the first keyword
contained in the lower-cased page text wins, and every paragraph of the
page containing it is recorded (trimmed); no keyword hit records nothing.
`split` is the paragraph splitter `text.split(/\n\s*\n/)`, kept as a
parameter so results hold for the source's exact splitting. -/
def categorizeOne (split : String → List String) (keywords : List String)
    (text : String) (page : Nat) : List SpecEntry :=
  match keywords.find? (fun kw => jsIncludes text.toLower kw) with
  | none => []
  | some kw =>
    (split text).filterMap (fun par =>
      if jsIncludes par.toLower kw then some ⟨par.trim, page, kw⟩ else none)

/-- The specifications component before any extraction: every category
present and empty (a JS object's absent key reads as an empty list
here). -/
def emptySpecifications : List (String × List SpecEntry) :=
  CATEGORIES.map (fun c => (c.1, []))

/-- Model of `categorizeSectionContent(text, pageNum)`: each category
appends its newly categorized passages to its accumulated list. -/
def categorizeSectionContent (split : String → List String) (text : String)
    (page : Nat) (specs : List (String × List SpecEntry)) :
    List (String × List SpecEntry) :=
  List.zipWith (fun cat cur => (cat.1, cur.2 ++ categorizeOne split cat.2 text page))
    CATEGORIES specs

/-- The dedup loop of `organizeKnowledgeBase`: keep an entry only when its
exact content string has not been seen earlier in the same category. -/
def dedupSeen (seen : List String) : List SpecEntry → List SpecEntry
  | [] => []
  | e :: rest =>
    if e.content ∈ seen then dedupSeen seen rest
    else e :: dedupSeen (e.content :: seen) rest

/-- The specifications-dedup step of `organizeKnowledgeBase` (finalization
of an extraction pass), applied per category. -/
def dedupSpecifications (specs : List (String × List SpecEntry)) :
    List (String × List SpecEntry) :=
  specs.map (fun p => (p.1, dedupSeen [] p.2))

/-- An entry of `knowledgeBase.pricing`. -/
structure PriceEntry where
  price : Rat
  pageReference : Nat
  context : Option String
deriving DecidableEq, Repr

/-- One recorded restriction occurrence. -/
structure RestrictionEntry where
  description : String
  pageReference : Nat
deriving DecidableEq, Repr

/-- A derived FAQ record. -/
structure FAQEntry where
  question : String
  answer : String
  category : String
deriving DecidableEq, Repr

/-- The module-level `knowledgeBase` object of pdfProcessor.js.  `faqs`
is `none` until `generateFAQs` first runs: the initial object literal has
no `faqs` key, and reading it yields `undefined`. -/
structure KnowledgeBase where
  equipment : EquipMap
  specifications : List (String × List SpecEntry)
  pricing : List (String × PriceEntry)
  restrictions : List (String × List RestrictionEntry)
  raw : List (String × String)
  faqs : Option (List FAQEntry)
deriving DecidableEq, Repr

/-- The value of `knowledgeBase` at module load, before any extraction
pass: five empty maps and no `faqs` key. -/
def initialKnowledgeBase : KnowledgeBase :=
  ⟨[], [], [], [], [], none⟩

/-- `Object.keys(knowledgeBase).length`: the initial literal owns the five
keys `equipment`, `specifications`, `pricing`, `restrictions` and `raw`,
and `generateFAQs` adds a sixth. -/
def keyCount (kb : KnowledgeBase) : Nat :=
  5 + (if kb.faqs.isSome then 1 else 0)

/-- A typed search hit, one constructor per result shape
`searchKnowledgeBase` pushes. -/
inductive SearchHit where
  | errorHit (message : String)
  | equipmentHit (name : String) (quantity : Nat) (specifications : String) (pages : List Nat)
  | pricingHit (item : String) (price : Rat) (page : Nat)
  | specificationHit (category : String) (content : String) (page : Nat)
  | restrictionHit (keyword : String) (description : String) (page : Nat)
  | faqHit (question : String) (answer : String) (category : String)
  | rawTextHit (page : String) (content : String)
deriving DecidableEq, Repr

/-- Model of `searchKnowledgeBase(query)` from pdfProcessor.js.  The
guard reproduces the source's emptiness test on the knowledge-base
object's keys; the structured passes run in the source's order, and the
FAQ pass dereferences `knowledgeBase.faqs`, which throws a TypeError
(`Except.error`) when the index was never built.  `split` is the raw-text
paragraph splitter. -/
def searchKnowledgeBase (split : String → List String) (kb : KnowledgeBase)
    (query : String) : Except String (List SearchHit) :=
  if keyCount kb == 0 then
    .ok [.errorHit "Knowledge base not loaded. Please load the PDF first."]
  else
    let q := query.toLower
    let equipHits : List SearchHit := kb.equipment.filterMap (fun p =>
      if jsIncludes p.1.toLower q then
        some (.equipmentHit p.1 p.2.quantity p.2.specifications p.2.pageReferences)
      else none)
    let priceHits : List SearchHit := kb.pricing.filterMap (fun p =>
      if jsIncludes p.1.toLower q then
        some (.pricingHit p.1 p.2.price p.2.pageReference)
      else none)
    let specHits : List SearchHit := (kb.specifications.map (fun c =>
      c.2.filterMap (fun e =>
        if jsIncludes e.content.toLower q then
          some (.specificationHit c.1 e.content e.pageReference)
        else none))).flatten
    let restrHits : List SearchHit := (kb.restrictions.map (fun r =>
      if jsIncludes r.1 q then
        r.2.map (fun e => SearchHit.restrictionHit r.1 e.description e.pageReference)
      else [])).flatten
    match kb.faqs with
    | none => .error "TypeError: Cannot read properties of undefined (reading 'forEach')"
    | some faqs =>
      let faqHits : List SearchHit := faqs.filterMap (fun f =>
        if jsIncludes f.question.toLower q || jsIncludes f.answer.toLower q then
          some (.faqHit f.question f.answer f.category)
        else none)
      let results := equipHits ++ priceHits ++ specHits ++ restrHits ++ faqHits
      if results.isEmpty then
        .ok ((kb.raw.map (fun pr =>
          if jsIncludes pr.2.toLower q then
            (split pr.2).filterMap (fun par =>
              if jsIncludes par.toLower q then
                some (SearchHit.rawTextHit (pr.1.replace "page_" "") par.trim)
              else none)
          else [])).flatten)
      else .ok results

/-- A change-history record: the fields `getChangeHistory` reads
(`lastUpdated`, `changeNote`) plus the carried domain field-set (a
previous version's partial snapshot, or the item's present fields for
the synthesized current record). -/
structure HistRecord where
  lastUpdated : String
  changeNote : String
  fields : List (String × String)
deriving DecidableEq, Repr

/-- A specification item of the versioned catalog. -/
structure SpecItem where
  id : String
  name : String
  lastUpdated : String
  fields : List (String × String)
  previousVersions : List HistRecord
deriving DecidableEq, Repr

/-- Catalog metadata. -/
structure SpecMetadata where
  version : String
  lastUpdated : String
  baseVersion : String
deriving DecidableEq, Repr

/-- A versioned specification catalog: metadata plus the
category → subcategory → item-array mapping. -/
structure Catalog where
  metadata : SpecMetadata
  categories : List (String × List (String × List SpecItem))
deriving DecidableEq, Repr

/-- The mutable state of a `SpecificationManager` instance: the held
catalog (`this.specs`, `none` for null) and the remembered sync timestamp
(`this.lastSyncTimestamp`). -/
structure ManagerState where
  specs : Option Catalog
  lastSyncTimestamp : Option String
deriving DecidableEq, Repr

/-- JS falsiness of the remembered timestamp: null/undefined and the
empty string are falsy; `!this.lastSyncTimestamp` is true exactly then
for the string-or-null values it holds. -/
def tsFalsy : Option String → Bool
  | none => true
  | some s => s == ""

/-- Model of `syncSpecifications()` in local-snapshot mode (the mode the
application constructs, `useApi: false`).  `fetchResponse` is the raw
body of a successful fetch (`none` when the fetch throws or returns not
ok), `parseJson` the JSON decode into the catalog shape (`none` when
parsing throws or when the decoded value cannot provide
`metadata.lastUpdated`, which also throws), and `parseDate` the host's
`new Date(string).getTime()` (`none` for NaN).  Every failure is caught
and reported as `false` with the state untouched; an accepted update
replaces the catalog and the remembered timestamp atomically. -/
def syncSpecifications (parseDate : String → Option Int) (st : ManagerState)
    (fetchResponse : Option String) (parseJson : String → Option Catalog) :
    Bool × ManagerState :=
  match fetchResponse with
  | none => (false, st)
  | some body =>
    match parseJson body with
    | none => (false, st)
    | some newSpecs =>
      let newTimestamp := newSpecs.metadata.lastUpdated
      let rememberedMs : Option Int :=
        match st.lastSyncTimestamp with
        | none => some 0
        | some s => if s == "" then some 0 else parseDate s
      let needsUpdate := st.specs.isNone || tsFalsy st.lastSyncTimestamp ||
        jsGTm (parseDate newTimestamp) rememberedMs
      if needsUpdate then (true, ⟨some newSpecs, some newTimestamp⟩)
      else (false, st)

/-- Model of `getItemById(id)`: linear scan across all
category → subcategory arrays in stored order, first match wins. -/
def getItemById (specs : Option Catalog) (id : String) : Option SpecItem :=
  match specs with
  | none => none
  | some cat =>
    ((cat.categories.map (fun c => (c.2.map Prod.snd).flatten)).flatten).find?
      (fun it => it.id == id)

/-- The comparator `(a, b) => new Date(b.lastUpdated) - new
Date(a.lastUpdated)` of `getChangeHistory`, read as a may-stay-before
relation: `a` may precede `b` unless `b`'s date is strictly newer
(descending order, NaN comparisons keep the original order). -/
def histLe (parseDate : String → Option Int) (a b : HistRecord) : Bool :=
  !(jsGTm (parseDate b.lastUpdated) (parseDate a.lastUpdated))

/-- Model of `getChangeHistory(id)`: an unknown id yields `[]`; otherwise
the item's `previousVersions` are copied, a synthesized current-version
record (note "Current version", the item's present field-set) is
unshifted to the front, and the whole list is stably sorted descending by
`lastUpdated`. -/
def getChangeHistory (parseDate : String → Option Int) (specs : Option Catalog)
    (id : String) : List HistRecord :=
  match getItemById specs id with
  | none => []
  | some item =>
    stableSort (histLe parseDate)
      (⟨item.lastUpdated, "Current version", item.fields⟩ :: item.previousVersions)

/-- A concrete timestamp parser used to instantiate parser parameters in
closed statements: canonical `YYYY-MM-DD` strings at UTC midnight, NaN
elsewhere (the source's timestamps in fixtures below use this form). -/
def parseDateIso (s : String) : Option Int :=
  (parseISODate s).map getTimeMs

/-- The seen-set a dedup pass has accumulated after processing a list
(proof infrastructure for reasoning about `dedupSeen` over appends). -/
def seenAfter (s : List String) : List SpecEntry → List String
  | [] => s
  | e :: rest =>
    if e.content ∈ s then seenAfter s rest else seenAfter (e.content :: s) rest

/-- Unfolding of the NaN-aware comparison into its numeric content. -/
theorem jsGTm_eq_true_iff (x y : Option Int) :
    jsGTm x y = true ↔ ∃ a b, x = some a ∧ y = some b ∧ b < a := by
  cases x <;> cases y <;> simp [jsGTm]

/-- C5: if any step of syncSpecifications fails (network fetch, JSON
parse), the failure is caught inside the operation, the previously held
catalog and remembered timestamp are left untouched, and the operation
returns false rather than propagating the error to the caller. -/
theorem syncSpecifications_failure_silent :
    ∀ (parseDate : String → Option Int) (st : ManagerState)
      (fetchResponse : Option String) (parseJson : String → Option Catalog),
      (fetchResponse = none ∨ ∃ body, fetchResponse = some body ∧ parseJson body = none) →
      syncSpecifications parseDate st fetchResponse parseJson = (false, st) := by
  intro p st fr pj h
  rcases h with h | ⟨body, hb, hp⟩
  · subst h; rfl
  · subst hb; simp [syncSpecifications, hp]

/-- Witness for C5: a failed fetch and a failed parse both report false
and leave a concrete held state untouched. -/
theorem syncSpecifications_failure_silent_witness :
    syncSpecifications parseDateIso ⟨none, some "2024-06-01"⟩ none (fun _ => none)
      = (false, ⟨none, some "2024-06-01"⟩) ∧
    syncSpecifications parseDateIso ⟨none, some "2024-06-01"⟩ (some "not json") (fun _ => none)
      = (false, ⟨none, some "2024-06-01"⟩) :=
  ⟨syncSpecifications_failure_silent parseDateIso ⟨none, some "2024-06-01"⟩ none
      (fun _ => none) (Or.inl rfl),
   syncSpecifications_failure_silent parseDateIso ⟨none, some "2024-06-01"⟩ (some "not json")
      (fun _ => none) (Or.inr ⟨"not json", rfl, rfl⟩)⟩

/-- C7 (code bug): with the index never built, the guard of
searchKnowledgeBase cannot fire (the initial knowledge-base object owns
five keys, so its key count is never zero and the object is never null),
and instead of the documented error-marker result the function throws a
TypeError when it dereferences the absent faqs list — for every query and
every paragraph splitter. -/
theorem searchKnowledgeBase_unbuilt_throws :
    ∀ (split : String → List String) (query : String),
      keyCount initialKnowledgeBase = 5 ∧
      searchKnowledgeBase split initialKnowledgeBase query =
        Except.error "TypeError: Cannot read properties of undefined (reading 'forEach')" := by
  intro split query
  exact ⟨rfl, rfl⟩

/-- C9: for slash- or dash-delimited date strings whose third component
is the 4-digit year, standardizeDate tries the UK (day/month/year)
reading first, falls back to the US (month/day/year) reading only when
the UK reading is an invalid date, serializes whichever succeeded to
canonical YYYY-MM-DD form, and yields the invalid-format marker when both
fail. -/
theorem standardizeDate_ukFirst_usFallback :
    ∀ (jsParse : String → Option Date) (s d m y : String) (rest : List String),
      isCanonicalForm s = false →
      containsSep s = true →
      splitSeps s = d :: m :: y :: rest →
      y.length = 4 →
      (∀ uk, mkJsDate y m d = some uk → standardizeDate jsParse s = toISODate uk) ∧
      (mkJsDate y m d = none →
        ∀ us, mkJsDate y d m = some us → standardizeDate jsParse s = toISODate us) ∧
      (mkJsDate y m d = none → mkJsDate y d m = none → standardizeDate jsParse s = "") := by
  intro jp s d m y rest hcan hsep hsplit hy
  refine ⟨?_, ?_, ?_⟩
  · intro uk huk
    simp [standardizeDate, hcan, hsep, hsplit, hy, huk]
  · intro hnone us hus
    simp [standardizeDate, hcan, hsep, hsplit, hy, hnone, hus]
  · intro hnone hnone2
    simp [standardizeDate, hcan, hsep, hsplit, hy, hnone, hnone2]

/-- Witness for C9: "15/06/2024" takes the UK reading, "06/15/2024" (UK
reading invalid, month 15) falls back to the US reading, and
"99/99/2024" (both readings invalid) yields the invalid marker. -/
theorem standardizeDate_ukFirst_usFallback_witness :
    standardizeDate (fun _ => none) "15/06/2024" = "2024-06-15" ∧
    standardizeDate (fun _ => none) "06/15/2024" = "2024-06-15" ∧
    standardizeDate (fun _ => none) "99/99/2024" = "" := by
  refine ⟨?_, ?_, ?_⟩
  · have h := (standardizeDate_ukFirst_usFallback (fun _ => none) "15/06/2024" "15" "06" "2024"
      [] (by decide) (by decide) (by decide) (by decide)).1 ⟨2024, 6, 15⟩ (by decide)
    rw [h]; rfl
  · have h := (standardizeDate_ukFirst_usFallback (fun _ => none) "06/15/2024" "06" "15" "2024"
      [] (by decide) (by decide) (by decide) (by decide)).2.1 (by decide) ⟨2024, 6, 15⟩ (by decide)
    rw [h]; rfl
  · exact (standardizeDate_ukFirst_usFallback (fun _ => none) "99/99/2024" "99" "99" "2024"
      [] (by decide) (by decide) (by decide) (by decide)).2.2 (by decide) (by decide)

/-- C3: when the durable cache misses, the session cache is not fresh and
the network fetch fails, fetchAllEvents returns the stale in-session
events unchanged when any exist, and otherwise exactly the deterministic
fallback sequence: ten events over five Friday/Saturday day pairs a week
apart, starting at the first Friday on or after today — a total
generator that cannot fail. -/
theorem fetchAllEvents_failure_fallback :
    ∀ (stored : Option SessionCache) (session : SessionCache) (nowMs todayDays : Nat),
      (stored = none ∨ ∃ sc, stored = some sc ∧ sc.events = []) →
      sessionFresh session nowMs = false →
      (session.events ≠ [] →
        fetchAllEvents stored session nowMs todayDays none = (session.events, session)) ∧
      (session.events = [] →
        fetchAllEvents stored session nowMs todayDays none =
          (getFallbackEvents todayDays, session)) ∧
      getFallbackEvents todayDays = (fallbackDays todayDays).map mkFallbackEvent ∧
      (∃ f, fallbackDays todayDays = [f, f + 1, f + 7, f + 8, f + 14, f + 15, f + 21,
          f + 22, f + 28, f + 29] ∧
        (f + 4) % 7 = 5 ∧ todayDays ≤ f ∧
        (∀ x, todayDays ≤ x → x < f → (x + 4) % 7 ≠ 5)) ∧
      (getFallbackEvents todayDays).length = 10 := by
  intro stored session nowMs todayDays hstored hfresh
  have haux : ∀ hne : ¬ session.events.isEmpty = true,
      fetchAllEventsAux session nowMs todayDays none = (session.events, session) := by
    intro hne
    simp [fetchAllEventsAux, hfresh, hne]
  have haux2 : ∀ he : session.events.isEmpty = true,
      fetchAllEventsAux session nowMs todayDays none =
        (getFallbackEvents todayDays, session) := by
    intro he
    simp [fetchAllEventsAux, hfresh, he]
  refine ⟨?_, ?_, rfl, ?_, ?_⟩
  · intro hne
    have hne' : ¬ session.events.isEmpty = true := by
      simpa [List.isEmpty_iff] using hne
    rcases hstored with h | ⟨sc, hsc, hev⟩
    · subst h; exact haux hne'
    · subst hsc; simp [fetchAllEvents, hev]; exact haux hne'
  · intro he
    have he' : session.events.isEmpty = true := by simp [List.isEmpty_iff, he]
    rcases hstored with h | ⟨sc, hsc, hev⟩
    · subst h; exact haux2 he'
    · subst hsc; simp [fetchAllEvents, hev]; exact haux2 he'
  · refine ⟨nextFridayOnOrAfter todayDays, rfl, ?_, ?_, ?_⟩
    · unfold nextFridayOnOrAfter; omega
    · unfold nextFridayOnOrAfter; omega
    · intro x hx1 hx2
      unfold nextFridayOnOrAfter at hx2
      omega
  · rfl

/-- Witness for C3: concrete instances of both failure shapes — a stale
non-empty session cache is handed back unchanged, and an empty one
produces the fallback sequence (here from Saturday 2024-06-15, whose
next Friday is 2024-06-21). -/
theorem fetchAllEvents_failure_fallback_witness :
    fetchAllEvents none ⟨[⟨"T", "2024-06-15", "", "", "", false, "", false⟩], some 1⟩
        7200000000 19889 none
      = ([⟨"T", "2024-06-15", "", "", "", false, "", false⟩],
         ⟨[⟨"T", "2024-06-15", "", "", "", false, "", false⟩], some 1⟩) ∧
    fetchAllEvents none ⟨[], none⟩ 7200000000 19889 none
      = (getFallbackEvents 19889, ⟨[], none⟩) ∧
    (getFallbackEvents 19889).length = 10 := by
  refine ⟨?_, ?_, ?_⟩
  · exact (fetchAllEvents_failure_fallback none
      ⟨[⟨"T", "2024-06-15", "", "", "", false, "", false⟩], some 1⟩ 7200000000 19889
      (Or.inl rfl) (by decide)).1 (by decide)
  · exact (fetchAllEvents_failure_fallback none ⟨[], none⟩ 7200000000 19889
      (Or.inl rfl) (by decide)).2.1 rfl
  · exact (fetchAllEvents_failure_fallback none ⟨[], none⟩ 7200000000 19889
      (Or.inl rfl) (by decide)).2.2.2.2

/-- Membership in an ordered insertion. -/
theorem mem_insertOrdered {α : Type} (le : α → α → Bool) (x : α) (l : List α) (z : α) :
    z ∈ insertOrdered le x l ↔ z = x ∨ z ∈ l := by
  induction l with
  | nil => simp [insertOrdered]
  | cons y ys ih =>
    by_cases h : le y x = true
    · simp only [insertOrdered, if_pos h, List.mem_cons, ih]
      tauto
    · simp only [insertOrdered, if_neg h, List.mem_cons]

/-- Ordered insertion permutes a cons. -/
theorem insertOrdered_perm {α : Type} (le : α → α → Bool) (x : α) (l : List α) :
    List.Perm (insertOrdered le x l) (x :: l) := by
  induction l with
  | nil => rfl
  | cons y ys ih =>
    by_cases h : le y x = true
    · simp only [insertOrdered, if_pos h]
      exact (ih.cons y).trans (List.Perm.swap x y ys)
    · simp [insertOrdered, h]

/-- The insertion fold underlying stableSort permutes its inputs. -/
theorem stableSort_perm_aux {α : Type} (le : α → α → Bool) (l : List α) :
    ∀ acc : List α, List.Perm (l.foldl (fun a x => insertOrdered le x a) acc) (acc ++ l) := by
  induction l with
  | nil => intro acc; simp
  | cons x xs ih =>
    intro acc
    have h1 : (x :: xs).foldl (fun a x => insertOrdered le x a) acc
        = xs.foldl (fun a x => insertOrdered le x a) (insertOrdered le x acc) := rfl
    rw [h1]
    refine (ih (insertOrdered le x acc)).trans ?_
    refine (((insertOrdered_perm le x acc).append_right xs).trans ?_)
    exact List.perm_middle.symm

/-- stableSort returns a permutation of its input. -/
theorem stableSort_perm {α : Type} (le : α → α → Bool) (l : List α) :
    List.Perm (stableSort le l) l := by
  simpa [stableSort] using stableSort_perm_aux le l []

/-- The head of the insertion fold is preserved when every later element
may stay after it. -/
theorem foldl_insertOrdered_head {α : Type} (le : α → α → Bool) (l : List α) :
    ∀ (acc : List α) (c : α), acc.head? = some c → (∀ x ∈ l, le c x = true) →
      (l.foldl (fun a x => insertOrdered le x a) acc).head? = some c := by
  induction l with
  | nil => intro acc c h _; exact h
  | cons x xs ih =>
    intro acc c hh hl
    apply ih
    · cases acc with
      | nil => simp at hh
      | cons a rest =>
        have ha : a = c := by simpa using hh
        subst ha
        simp [insertOrdered, hl x (by simp)]
    · intro z hz; exact hl z (by simp [hz])

/-- Ordered insertion preserves pairwise ordering, given totality through
`hback` (a failed comparison certifies both operands and the reverse
comparison) and transitivity on certified elements. -/
theorem pairwise_insertOrdered {α : Type} (le : α → α → Bool) (good : α → Prop)
    (hback : ∀ a b, ¬ le a b = true → good a ∧ good b ∧ le b a = true)
    (htrans : ∀ a b c, good a → good b → good c →
      le a b = true → le b c = true → le a c = true)
    (x : α) (l : List α) (hg : ∀ z ∈ l, good z)
    (hp : l.Pairwise (fun a b => le a b = true)) :
    (insertOrdered le x l).Pairwise (fun a b => le a b = true) := by
  induction l with
  | nil => simp [insertOrdered]
  | cons y ys ih =>
    rcases List.pairwise_cons.mp hp with ⟨hy, hys⟩
    by_cases h : le y x = true
    · simp only [insertOrdered, if_pos h]
      rw [List.pairwise_cons]
      constructor
      · intro z hz
        rcases (mem_insertOrdered le x ys z).mp hz with rfl | hzys
        · exact h
        · exact hy z hzys
      · exact ih (fun z hz => hg z (by simp [hz])) hys
    · simp only [insertOrdered, if_neg h]
      rcases hback y x h with ⟨hgy, hgx, hxy⟩
      rw [List.pairwise_cons]
      constructor
      · intro z hz
        rcases List.mem_cons.mp hz with rfl | hzys
        · exact hxy
        · exact htrans x y z hgx hgy (hg z (by simp [hzys])) hxy (hy z hzys)
      · exact hp

/-- The insertion fold produces a pairwise-ordered list from a
pairwise-ordered accumulator. -/
theorem pairwise_foldl_insertOrdered {α : Type} (le : α → α → Bool) (good : α → Prop)
    (hback : ∀ a b, ¬ le a b = true → good a ∧ good b ∧ le b a = true)
    (htrans : ∀ a b c, good a → good b → good c →
      le a b = true → le b c = true → le a c = true)
    (l : List α) :
    ∀ acc : List α, (∀ z ∈ acc, good z) → (∀ z ∈ l, good z) →
      acc.Pairwise (fun a b => le a b = true) →
      (l.foldl (fun a x => insertOrdered le x a) acc).Pairwise (fun a b => le a b = true) := by
  induction l with
  | nil => intro acc _ _ hp; exact hp
  | cons x xs ih =>
    intro acc hacc hl hp
    apply ih
    · intro z hz
      rcases (mem_insertOrdered le x acc z).mp hz with rfl | hzacc
      · exact hl z (by simp)
      · exact hacc z hzacc
    · intro z hz; exact hl z (by simp [hz])
    · exact pairwise_insertOrdered le good hback htrans x acc hacc hp

/-- Membership characterization of the near-date window filter with the
default three-day range. -/
theorem mem_findNearbyEvents (events : List Event) (std : String) (e : Event) :
    e ∈ findNearbyEvents events std 3 ↔
      e ∈ events ∧ ∃ d t, parseISODate e.date = some d ∧ parseISODate std = some t ∧
        (getTimeMs d - getTimeMs t).natAbs ≤ 3 * 86400000 := by
  unfold findNearbyEvents
  rw [List.mem_filter]
  apply and_congr_right
  intro _
  by_cases hd : e.date = ""
  · have hnone : parseISODate "" = none := rfl
    simp [hd, hnone]
  · simp only [hd, if_neg]
    cases hpe : parseISODate e.date <;> cases hps : parseISODate std <;>
      simp [hpe, hps, if_neg hd]

/-- C2: getEventForDate returns the invalid-format result for a query
that does not normalize, independently of the event store; otherwise it
returns an exact match when some event's canonical date equals the
normalized query date, else a non-exact match holding exactly the events
whose canonical dates lie within the fixed three-day window of the query
date, else the not-found result with its human-readable message. -/
theorem getEventForDate_spec :
    ∀ (jsParse : String → Option Date) (events : List Event) (q : String),
      (standardizeDate jsParse q = "" →
        getEventForDate jsParse events q = .invalidFormat "Invalid date format") ∧
      (standardizeDate jsParse q ≠ "" →
        (∀ e, events.find? (fun ev => ev.date == standardizeDate jsParse q) = some e →
          getEventForDate jsParse events q = .exactMatch e) ∧
        (events.find? (fun ev => ev.date == standardizeDate jsParse q) = none →
          (findNearbyEvents events (standardizeDate jsParse q) 3 = [] →
            getEventForDate jsParse events q = .notFound "No events found for this date") ∧
          (findNearbyEvents events (standardizeDate jsParse q) 3 ≠ [] →
            getEventForDate jsParse events q =
              .nearbyMatch (findNearbyEvents events (standardizeDate jsParse q) 3) ∧
            ∀ e, e ∈ findNearbyEvents events (standardizeDate jsParse q) 3 ↔
              e ∈ events ∧ ∃ d t, parseISODate e.date = some d ∧
                parseISODate (standardizeDate jsParse q) = some t ∧
                (getTimeMs d - getTimeMs t).natAbs ≤ 3 * 86400000))) := by
  intro jp events q
  refine ⟨?_, ?_⟩
  · intro hstd
    simp [getEventForDate, hstd]
  · intro hstd
    refine ⟨?_, ?_⟩
    · intro e hfind
      simp [getEventForDate, hstd, hfind]
    · intro hfind
      refine ⟨?_, ?_⟩
      · intro hnil
        simp [getEventForDate, hstd, hfind, hnil]
      · intro hne
        have hne' : ¬ (findNearbyEvents events (standardizeDate jp q) 3).isEmpty = true := by
          simpa [List.isEmpty_iff] using hne
        refine ⟨?_, fun e => mem_findNearbyEvents events (standardizeDate jp q) e⟩
        simp [getEventForDate, hstd, hfind, hne']

/-- Witness for C2: against a one-event store dated 2024-06-15 the query
"2024-06-15" is an exact match; a store dated 2024-06-17 gives a
non-exact match containing that event; a store dated 2024-06-25 gives
the not-found result; and an unparseable query is rejected as invalid
format. -/
theorem getEventForDate_spec_witness :
    getEventForDate (fun _ => none)
        [⟨"A", "2024-06-15", "", "", "", false, "", false⟩] "2024-06-15"
      = .exactMatch ⟨"A", "2024-06-15", "", "", "", false, "", false⟩ ∧
    getEventForDate (fun _ => none)
        [⟨"B", "2024-06-17", "", "", "", false, "", false⟩] "2024-06-15"
      = .nearbyMatch [⟨"B", "2024-06-17", "", "", "", false, "", false⟩] ∧
    getEventForDate (fun _ => none)
        [⟨"C", "2024-06-25", "", "", "", false, "", false⟩] "2024-06-15"
      = .notFound "No events found for this date" ∧
    getEventForDate (fun _ => none)
        [⟨"A", "2024-06-15", "", "", "", false, "", false⟩] "gibberish"
      = .invalidFormat "Invalid date format" := by
  refine ⟨?_, ?_, ?_, ?_⟩
  · exact ((getEventForDate_spec (fun _ => none)
      [⟨"A", "2024-06-15", "", "", "", false, "", false⟩] "2024-06-15").2
      (by decide)).1 ⟨"A", "2024-06-15", "", "", "", false, "", false⟩ (by decide)
  · have h := (((getEventForDate_spec (fun _ => none)
      [⟨"B", "2024-06-17", "", "", "", false, "", false⟩] "2024-06-15").2
      (by decide)).2 (by decide)).2 (by decide)
    exact h.1
  · exact (((getEventForDate_spec (fun _ => none)
      [⟨"C", "2024-06-25", "", "", "", false, "", false⟩] "2024-06-15").2
      (by decide)).2 (by decide)).1 (by decide)
  · exact (getEventForDate_spec (fun _ => none)
      [⟨"A", "2024-06-15", "", "", "", false, "", false⟩] "gibberish").1 (by decide)

/-- C10: an event whose scraped date text could not be parsed (canonical
date the empty string) is still pushed by parseCalendarEvents — every
selected element yields its event in the returned sequence — yet
getEventForDate never returns such an event inside an exact match or a
near-date match, for every event list and every query. -/
theorem emptyDate_retained_never_matched :
    ∀ (pd : String → String) (today : Nat) (elements : List RawEventElement)
      (jsParse : String → Option Date) (events : List Event) (q : String),
      (∀ el ∈ elements, mkScrapedEvent pd el ∈ parseCalendarEvents pd today elements) ∧
      (∀ e, getEventForDate jsParse events q = .exactMatch e → e.date ≠ "") ∧
      (∀ es e, getEventForDate jsParse events q = .nearbyMatch es → e ∈ es → e.date ≠ "") := by
  intro pd today elements jp events q
  refine ⟨?_, ?_, ?_⟩
  · intro el hel
    unfold parseCalendarEvents
    have hmem : mkScrapedEvent pd el ∈ elements.map (mkScrapedEvent pd) :=
      List.mem_map_of_mem _ hel
    have hmem2 : mkScrapedEvent pd el ∈
        stableSort eventDateLe (elements.map (mkScrapedEvent pd)) :=
      (stableSort_perm eventDateLe (elements.map (mkScrapedEvent pd))).mem_iff.mpr hmem
    have hne : ¬ (stableSort eventDateLe (elements.map (mkScrapedEvent pd))).isEmpty = true := by
      rw [List.isEmpty_iff]
      intro hnil
      rw [hnil] at hmem2
      simp at hmem2
    simpa [hne] using hmem2
  · intro e he
    by_cases hstd : standardizeDate jp q = ""
    · rw [(getEventForDate_spec jp events q).1 hstd] at he
      exact absurd he (by simp)
    · intro hdate
      revert he
      simp only [getEventForDate]
      rw [if_neg hstd]
      cases hfind : events.find? (fun ev => ev.date == standardizeDate jp q) with
      | some ev =>
        intro he
        have hev : ev.date = standardizeDate jp q := by
          have := List.find?_some hfind
          simpa using this
        have hee : ev = e := by simpa using he
        subst hee
        rw [hdate] at hev
        exact hstd hev.symm
      | none =>
        by_cases hne : (findNearbyEvents events (standardizeDate jp q) 3).isEmpty = true
        · simp [hne]
        · simp [hne]
  · intro es e he hees
    by_cases hstd : standardizeDate jp q = ""
    · rw [(getEventForDate_spec jp events q).1 hstd] at he
      exact absurd he (by simp)
    · revert he
      simp only [getEventForDate]
      rw [if_neg hstd]
      cases hfind : events.find? (fun ev => ev.date == standardizeDate jp q) with
      | some ev => intro he; exact absurd he (by simp)
      | none =>
        by_cases hne : (findNearbyEvents events (standardizeDate jp q) 3).isEmpty = true
        · simp [hne]
        · simp only [hne, if_neg, Bool.not_eq_true]
          intro he
          have hes : es = findNearbyEvents events (standardizeDate jp q) 3 := by
            simpa using he.symm
          subst hes
          rcases (mem_findNearbyEvents events (standardizeDate jp q) e).mp hees
            with ⟨_, d, t, hd, _, _⟩
          intro hdate
          rw [hdate] at hd
          exact absurd hd (by simp [parseISODate])

/-- Witness for C10: a two-element scrape where one element's date text
is unparseable — the empty-dated event is present in the parsed sequence,
and concrete exact and nearby matches never surface an empty-dated
event. -/
theorem emptyDate_retained_never_matched_witness :
    (mkScrapedEvent (fun _ => "") ⟨some "X", some "badtext", none, none, "", none⟩ ∈
      parseCalendarEvents (fun _ => "") 0
        [⟨some "X", some "badtext", none, none, "", none⟩,
         ⟨some "Y", some "other", none, none, "", none⟩]) ∧
    (∀ e, getEventForDate (fun _ => none)
        [⟨"X", "", "badtext", "", "", false, "", false⟩,
         ⟨"B", "2024-06-17", "", "", "", false, "", false⟩] "2024-06-15"
        = .exactMatch e → e.date ≠ "") ∧
    (∀ es e, getEventForDate (fun _ => none)
        [⟨"X", "", "badtext", "", "", false, "", false⟩,
         ⟨"B", "2024-06-17", "", "", "", false, "", false⟩] "2024-06-15"
        = .nearbyMatch es → e ∈ es → e.date ≠ "") := by
  refine ⟨?_, ?_, ?_⟩
  · exact (emptyDate_retained_never_matched (fun _ => "") 0
      [⟨some "X", some "badtext", none, none, "", none⟩,
       ⟨some "Y", some "other", none, none, "", none⟩] (fun _ => none) [] "").1
      ⟨some "X", some "badtext", none, none, "", none⟩ (by simp)
  · exact (emptyDate_retained_never_matched (fun _ => "") 0 [] (fun _ => none)
      [⟨"X", "", "badtext", "", "", false, "", false⟩,
       ⟨"B", "2024-06-17", "", "", "", false, "", false⟩] "2024-06-15").2.1
  · exact (emptyDate_retained_never_matched (fun _ => "") 0 [] (fun _ => none)
      [⟨"X", "", "badtext", "", "", false, "", false⟩,
       ⟨"B", "2024-06-17", "", "", "", false, "", false⟩] "2024-06-15").2.2

/-- A failed histLe comparison certifies that both timestamps parse and
that the reverse comparison holds. -/
theorem histLe_back (p : String → Option Int) :
    ∀ a b : HistRecord, ¬ histLe p a b = true →
      (p a.lastUpdated).isSome = true ∧ (p b.lastUpdated).isSome = true ∧
        histLe p b a = true := by
  intro a b h
  have h' : jsGTm (p b.lastUpdated) (p a.lastUpdated) = true := by
    simpa [histLe] using h
  rcases (jsGTm_eq_true_iff _ _).mp h' with ⟨vb, va, hb, ha, hlt⟩
  refine ⟨by simp [ha], by simp [hb], ?_⟩
  simp only [histLe, ha, hb, jsGTm]
  simp
  omega

/-- histLe is transitive on records whose timestamps parse. -/
theorem histLe_trans (p : String → Option Int) :
    ∀ a b c : HistRecord,
      (p a.lastUpdated).isSome = true → (p b.lastUpdated).isSome = true →
      (p c.lastUpdated).isSome = true →
      histLe p a b = true → histLe p b c = true → histLe p a c = true := by
  intro a b c ha hb hc hab hbc
  rcases Option.isSome_iff_exists.mp ha with ⟨va, hva⟩
  rcases Option.isSome_iff_exists.mp hb with ⟨vb, hvb⟩
  rcases Option.isSome_iff_exists.mp hc with ⟨vc, hvc⟩
  simp only [histLe, jsGTm, hva, hvb, hvc] at hab hbc ⊢
  simp at hab hbc ⊢
  omega

/-- C6 (amended): for every item held by the registry whose timestamps
all parse and whose current lastUpdated is at least as new as every
previous version's, getChangeHistory returns exactly the
previousVersions plus one synthesized current record whose note equals
"Current version", with the synthesized record first and the whole
sequence of length previousVersions+1 (3 records for two previous
versions), sorted descending by lastUpdated. -/
theorem getChangeHistory_ordered :
    ∀ (p : String → Option Int) (specs : Option Catalog) (id : String)
      (item : SpecItem) (ct : Int),
      getItemById specs id = some item →
      p item.lastUpdated = some ct →
      (∀ r ∈ item.previousVersions, ∃ rt, p r.lastUpdated = some rt ∧ rt ≤ ct) →
      (getChangeHistory p specs id).length = item.previousVersions.length + 1 ∧
      (getChangeHistory p specs id).head? =
        some ⟨item.lastUpdated, "Current version", item.fields⟩ ∧
      List.Perm (getChangeHistory p specs id)
        (⟨item.lastUpdated, "Current version", item.fields⟩ :: item.previousVersions) ∧
      (getChangeHistory p specs id).Pairwise (fun a b => histLe p a b = true) := by
  intro p specs id item ct hitem hct hprev
  have hunfold : getChangeHistory p specs id =
      stableSort (histLe p)
        (⟨item.lastUpdated, "Current version", item.fields⟩ :: item.previousVersions) := by
    simp [getChangeHistory, hitem]
  have hfold : stableSort (histLe p)
      (⟨item.lastUpdated, "Current version", item.fields⟩ :: item.previousVersions)
      = List.foldl (fun a x => insertOrdered (histLe p) x a)
          [⟨item.lastUpdated, "Current version", item.fields⟩] item.previousVersions := rfl
  have hperm := stableSort_perm (histLe p)
    (⟨item.lastUpdated, "Current version", item.fields⟩ :: item.previousVersions)
  refine ⟨?_, ?_, ?_, ?_⟩
  · rw [hunfold, hperm.length_eq]; simp
  · rw [hunfold, hfold]
    apply foldl_insertOrdered_head
    · rfl
    · intro r hr
      rcases hprev r hr with ⟨rt, hrt, hle⟩
      simp only [histLe, jsGTm, hrt, hct]
      simp
      omega
  · rw [hunfold]; exact hperm
  · rw [hunfold, hfold]
    apply pairwise_foldl_insertOrdered (histLe p)
      (fun r => (p r.lastUpdated).isSome = true) (histLe_back p) (histLe_trans p)
    · intro z hz
      have hz' : z = ⟨item.lastUpdated, "Current version", item.fields⟩ := by simpa using hz
      subst hz'
      simp [hct]
    · intro z hz
      rcases hprev z hz with ⟨rt, hrt, _⟩
      simp [hrt]
    · simp

/-- Counterexample for C6 as stated: an item held by the registry with
exactly two previousVersions, one of them dated after the current
version — the first record of getChangeHistory is that previous version
(note "n1"), not the synthesized current record, so the claim's
unconditional "first record's note is Current version" fails. -/
theorem getChangeHistory_head_counterexample :
    (getChangeHistory parseDateIso
        (some ⟨⟨"1.0", "2024-01-01", "1.0"⟩,
          [("sound", [("players",
            [⟨"itm", "Deck", "2024-01-01", [],
              [⟨"2025-03-01", "n1", []⟩, ⟨"2023-01-01", "n2", []⟩]⟩])])]⟩)
        "itm").map HistRecord.changeNote = ["n1", "Current version", "n2"] ∧
    ("n1" : String) ≠ "Current version" := by
  refine ⟨by decide, by decide⟩

/-- Witness for C6 (amended): a well-formed item with two previous
versions older than the current state yields exactly 3 records with the
synthesized "Current version" record first. -/
theorem getChangeHistory_ordered_witness :
    (getChangeHistory parseDateIso
        (some ⟨⟨"1.0", "2024-06-01", "1.0"⟩,
          [("sound", [("players",
            [⟨"itm", "Deck", "2024-06-01", [],
              [⟨"2024-03-01", "u1", []⟩, ⟨"2023-01-01", "u2", []⟩]⟩])])]⟩)
        "itm").length = 3 ∧
    (getChangeHistory parseDateIso
        (some ⟨⟨"1.0", "2024-06-01", "1.0"⟩,
          [("sound", [("players",
            [⟨"itm", "Deck", "2024-06-01", [],
              [⟨"2024-03-01", "u1", []⟩, ⟨"2023-01-01", "u2", []⟩]⟩])])]⟩)
        "itm").head? = some ⟨"2024-06-01", "Current version", []⟩ := by
  have h := getChangeHistory_ordered parseDateIso
    (some ⟨⟨"1.0", "2024-06-01", "1.0"⟩,
      [("sound", [("players",
        [⟨"itm", "Deck", "2024-06-01", [],
          [⟨"2024-03-01", "u1", []⟩, ⟨"2023-01-01", "u2", []⟩]⟩])])]⟩)
    "itm"
    ⟨"itm", "Deck", "2024-06-01", [], [⟨"2024-03-01", "u1", []⟩, ⟨"2023-01-01", "u2", []⟩]⟩
    (getTimeMs ⟨2024, 6, 1⟩) rfl rfl ?_
  · exact ⟨by simpa using h.1, by simpa using h.2.1⟩
  · intro r hr
    rcases List.mem_cons.mp hr with hr1 | hr2
    · subst hr1
      exact ⟨getTimeMs ⟨2024, 3, 1⟩, rfl, by decide⟩
    · have hr2' : r = ⟨"2023-01-01", "u2", []⟩ := by simpa using hr2
      subst hr2'
      exact ⟨getTimeMs ⟨2023, 1, 1⟩, rfl, by decide⟩

/-- The update decision of syncSpecifications, spelled out: no held
catalog, a falsy remembered timestamp, or a candidate timestamp that
parses strictly newer than a parsing remembered one. -/
theorem needsUpdate_iff (p : String → Option Int) (st : ManagerState) (c : Catalog) :
    (st.specs.isNone || tsFalsy st.lastSyncTimestamp ||
      jsGTm (p c.metadata.lastUpdated)
        (match st.lastSyncTimestamp with
         | none => some 0
         | some s => if s == "" then some 0 else p s)) = true ↔
      st.specs = none ∨ tsFalsy st.lastSyncTimestamp = true ∨
      (∃ s nt rt, st.lastSyncTimestamp = some s ∧
        p c.metadata.lastUpdated = some nt ∧ p s = some rt ∧ rt < nt) := by
  cases hts : st.lastSyncTimestamp with
  | none => simp [tsFalsy, Option.isNone_iff_eq_none]
  | some s =>
    by_cases hs : s = ""
    · subst hs
      simp [tsFalsy, Option.isNone_iff_eq_none]
    · have hs' : (s == "") = false := by simpa using hs
      simp [tsFalsy, hs', Option.isNone_iff_eq_none, jsGTm_eq_true_iff]

/-- Reduction of syncSpecifications on a successfully fetched and parsed
candidate catalog. -/
theorem syncSpecifications_some (p : String → Option Int) (st : ManagerState)
    (body : String) (pj : String → Option Catalog) (c : Catalog)
    (hpj : pj body = some c) :
    syncSpecifications p st (some body) pj =
      (if (st.specs.isNone || tsFalsy st.lastSyncTimestamp ||
          jsGTm (p c.metadata.lastUpdated)
            (match st.lastSyncTimestamp with
             | none => some 0
             | some s => if s == "" then some 0 else p s)) = true
       then (true, ⟨some c, some c.metadata.lastUpdated⟩)
       else (false, st)) := by
  simp only [syncSpecifications, hpj]

/-- C4 (amended): an update is performed iff no catalog is held, no
remembered timestamp exists (none or the falsy empty string), or the
candidate's timestamp parses strictly newer than the remembered one;
and, provided the source's timestamp is non-empty, a second successive
call against an unchanged source returns false and leaves the held
state — its version string included — unchanged. -/
theorem syncSpecifications_staleness :
    ∀ (p : String → Option Int) (st : ManagerState) (body : String)
      (pj : String → Option Catalog) (c : Catalog),
      pj body = some c →
      ((syncSpecifications p st (some body) pj).1 = true ↔
        st.specs = none ∨ tsFalsy st.lastSyncTimestamp = true ∨
        (∃ s nt rt, st.lastSyncTimestamp = some s ∧
          p c.metadata.lastUpdated = some nt ∧ p s = some rt ∧ rt < nt)) ∧
      (c.metadata.lastUpdated ≠ "" →
        syncSpecifications p (syncSpecifications p st (some body) pj).2 (some body) pj
          = (false, (syncSpecifications p st (some body) pj).2)) := by
  intro p st body pj c hpj
  have hred := syncSpecifications_some p st body pj c hpj
  constructor
  · rw [hred]
    by_cases hcond : (st.specs.isNone || tsFalsy st.lastSyncTimestamp ||
        jsGTm (p c.metadata.lastUpdated)
          (match st.lastSyncTimestamp with
           | none => some 0
           | some s => if s == "" then some 0 else p s)) = true
    · rw [if_pos hcond]
      simpa using (needsUpdate_iff p st c).mp hcond
    · rw [if_neg hcond]
      simp only [show ((false, st).1 = true) ↔ False by simp]
      constructor
      · exact fun h => h.elim
      · intro h
        exact hcond ((needsUpdate_iff p st c).mpr h)
  · intro hlu
    have hlu' : (c.metadata.lastUpdated == "") = false := by simpa using hlu
    have hGTself : jsGTm (p c.metadata.lastUpdated)
        (if (c.metadata.lastUpdated == "") = true then some 0
         else p c.metadata.lastUpdated) = false := by
      rw [if_neg (by simp [hlu'])]
      cases p c.metadata.lastUpdated with
      | none => rfl
      | some v => simp [jsGTm]
    rw [hred]
    by_cases hcond : (st.specs.isNone || tsFalsy st.lastSyncTimestamp ||
        jsGTm (p c.metadata.lastUpdated)
          (match st.lastSyncTimestamp with
           | none => some 0
           | some s => if s == "" then some 0 else p s)) = true
    · rw [if_pos hcond]
      have hred2 := syncSpecifications_some p
        ⟨some c, some c.metadata.lastUpdated⟩ body pj c hpj
      rw [hred2]
      rw [if_neg ?_]
      simp only [Option.isNone_some, tsFalsy, Bool.false_or]
      rw [hlu']
      simp only [Bool.false_or]
      intro hbad
      simp only [Bool.false_eq_true, if_false] at hbad
      cases hplu : p c.metadata.lastUpdated with
      | none => rw [hplu] at hbad; exact absurd hbad (by simp [jsGTm])
      | some v => rw [hplu] at hbad; simp [jsGTm] at hbad
    · rw [if_neg hcond]
      rw [hred]
      rw [if_neg hcond]

/-- Counterexample for C4 as stated: a source whose catalog timestamp is
the empty string.  The first sync stores that empty timestamp; on the
second successive call against the unchanged source the remembered
timestamp is falsy, so the manager updates again and returns true, not
false. -/
theorem syncSpecifications_secondCall_counterexample :
    (syncSpecifications parseDateIso
        (syncSpecifications parseDateIso ⟨none, none⟩ (some "{}")
          (fun _ => some ⟨⟨"2.1", "", "2.0"⟩, []⟩)).2
        (some "{}") (fun _ => some ⟨⟨"2.1", "", "2.0"⟩, []⟩)).1 = true := by
  decide

/-- Witness for C4 (amended): with a non-empty source timestamp the
first sync from the empty state updates, and the second successive call
returns false with the held state unchanged. -/
theorem syncSpecifications_staleness_witness :
    (syncSpecifications parseDateIso ⟨none, none⟩ (some "{}")
        (fun _ => some ⟨⟨"2.1", "2024-06-01", "2.0"⟩, []⟩)).1 = true ∧
    syncSpecifications parseDateIso
        (syncSpecifications parseDateIso ⟨none, none⟩ (some "{}")
          (fun _ => some ⟨⟨"2.1", "2024-06-01", "2.0"⟩, []⟩)).2
        (some "{}") (fun _ => some ⟨⟨"2.1", "2024-06-01", "2.0"⟩, []⟩)
      = (false, (syncSpecifications parseDateIso ⟨none, none⟩ (some "{}")
          (fun _ => some ⟨⟨"2.1", "2024-06-01", "2.0"⟩, []⟩)).2) := by
  constructor
  · exact (syncSpecifications_staleness parseDateIso ⟨none, none⟩ "{}"
      (fun _ => some ⟨⟨"2.1", "2024-06-01", "2.0"⟩, []⟩) ⟨⟨"2.1", "2024-06-01", "2.0"⟩, []⟩
      rfl).1.mpr (Or.inl rfl)
  · exact (syncSpecifications_staleness parseDateIso ⟨none, none⟩ "{}"
      (fun _ => some ⟨⟨"2.1", "2024-06-01", "2.0"⟩, []⟩) ⟨⟨"2.1", "2024-06-01", "2.0"⟩, []⟩
      rfl).2 (by decide)

/-- Dedup distributes over append through the accumulated seen-set. -/
theorem dedupSeen_append (xs : List SpecEntry) :
    ∀ (s : List String) (ys : List SpecEntry),
      dedupSeen s (xs ++ ys) = dedupSeen s xs ++ dedupSeen (seenAfter s xs) ys := by
  induction xs with
  | nil => intro s ys; rfl
  | cons e t ih =>
    intro s ys
    by_cases h : e.content ∈ s
    · simp only [List.cons_append, dedupSeen, if_pos h, seenAfter]
      exact ih s ys
    · simp only [List.cons_append, dedupSeen, if_neg h, seenAfter]
      rw [List.append_eq, ih]

/-- Contents recorded in the accumulated seen-set. -/
theorem mem_seenAfter (xs : List SpecEntry) :
    ∀ (s : List String) (c : String),
      c ∈ seenAfter s xs ↔ c ∈ s ∨ c ∈ xs.map SpecEntry.content := by
  induction xs with
  | nil => intro s c; simp [seenAfter]
  | cons e t ih =>
    intro s c
    by_cases h : e.content ∈ s
    · rw [seenAfter, if_pos h, ih]
      simp only [List.map_cons, List.mem_cons]
      constructor
      · rintro (h1 | h2)
        · exact Or.inl h1
        · exact Or.inr (Or.inr h2)
      · rintro (h1 | h2 | h3)
        · exact Or.inl h1
        · exact Or.inl (by rw [h2]; exact h)
        · exact Or.inr h3
    · rw [seenAfter, if_neg h, ih]
      simp only [List.map_cons, List.mem_cons]
      tauto

/-- Dedup removes everything already seen. -/
theorem dedupSeen_nil_of_seen (ys : List SpecEntry) :
    ∀ s : List String, (∀ e ∈ ys, e.content ∈ s) → dedupSeen s ys = [] := by
  induction ys with
  | nil => intro s _; rfl
  | cons e t ih =>
    intro s h
    have he : e.content ∈ s := h e (by simp)
    rw [dedupSeen, if_pos he]
    exact ih s (fun x hx => h x (by simp [hx]))

/-- Dedup is idempotent relative to any seen-set. -/
theorem dedupSeen_idem (l : List SpecEntry) :
    ∀ s : List String, dedupSeen s (dedupSeen s l) = dedupSeen s l := by
  induction l with
  | nil => intro s; rfl
  | cons e t ih =>
    intro s
    by_cases h : e.content ∈ s
    · rw [dedupSeen, if_pos h]
      exact ih s
    · rw [dedupSeen, if_neg h, dedupSeen, if_neg h]
      rw [ih (e.content :: s)]

/-- Every input content survives into the seen-set or the deduped list. -/
theorem content_mem_dedupSeen (l : List SpecEntry) :
    ∀ (s : List String) (e : SpecEntry), e ∈ l →
      e.content ∈ s ∨ e.content ∈ (dedupSeen s l).map SpecEntry.content := by
  induction l with
  | nil => intro s e h; simp at h
  | cons x t ih =>
    intro s e h
    by_cases hx : x.content ∈ s
    · rw [dedupSeen, if_pos hx]
      rcases List.mem_cons.mp h with rfl | ht
      · exact Or.inl hx
      · exact ih s e ht
    · rw [dedupSeen, if_neg hx]
      simp only [List.map_cons, List.mem_cons]
      rcases List.mem_cons.mp h with rfl | ht
      · exact Or.inr (Or.inl rfl)
      · rcases ih (x.content :: s) e ht with hs | hd
        · rcases List.mem_cons.mp hs with h1 | h2
          · exact Or.inr (Or.inl h1)
          · exact Or.inl h2
        · exact Or.inr (Or.inr hd)

/-- Appending a list after its own dedup and deduping again changes
nothing: the later copies all duplicate recorded contents. -/
theorem dedupSeen_redo (l : List SpecEntry) :
    dedupSeen [] (dedupSeen [] l ++ l) = dedupSeen [] l := by
  rw [dedupSeen_append, dedupSeen_idem]
  have hnil : dedupSeen (seenAfter [] (dedupSeen [] l)) l = [] := by
    apply dedupSeen_nil_of_seen
    intro e he
    rw [mem_seenAfter]
    rcases content_mem_dedupSeen l [] e he with h | h
    · exact absurd h (by simp)
    · exact Or.inr h
  rw [hnil, List.append_nil]

/-- The category-parallel two-pass pipeline collapses to one pass, for
any category/keyword list. -/
theorem reextract_pipeline (split : String → List String) (text : String) :
    ∀ cats : List (String × List String),
      (List.zipWith (fun cat cur => (cat.1, cur.2 ++ categorizeOne split cat.2 text 1))
        cats
        ((List.zipWith (fun cat cur => (cat.1, cur.2 ++ categorizeOne split cat.2 text 1))
            cats (cats.map (fun c => (c.1, ([] : List SpecEntry))))).map
          (fun p => (p.1, dedupSeen [] p.2)))).map (fun p => (p.1, dedupSeen [] p.2))
      = (List.zipWith (fun cat cur => (cat.1, cur.2 ++ categorizeOne split cat.2 text 1))
          cats (cats.map (fun c => (c.1, ([] : List SpecEntry))))).map
          (fun p => (p.1, dedupSeen [] p.2)) := by
  intro cats
  induction cats with
  | nil => rfl
  | cons c cs ih =>
    simp only [List.map_cons, List.zipWith_cons_cons, List.nil_append]
    rw [dedupSeen_redo, ih]

/-- C8: running extraction twice on the same single-page document yields
identical CategorizedPassage sets — finalization's exact-string dedup
within each category removes every passage the second pass duplicates,
for every paragraph splitter and every page text. -/
theorem reextraction_passages_idempotent :
    ∀ (split : String → List String) (text : String),
      dedupSpecifications (categorizeSectionContent split text 1
        (dedupSpecifications (categorizeSectionContent split text 1 emptySpecifications)))
      = dedupSpecifications (categorizeSectionContent split text 1 emptySpecifications) := by
  intro split text
  exact reextract_pipeline split text CATEGORIES

/-- Lookup over a cons cell of the equipment map. -/
theorem lookupEquip_cons (name : String) (kv : String × EquipEntry) (t : EquipMap) :
    lookupEquip name (kv :: t) =
      if (kv.1 == name) = true then some kv.2 else lookupEquip name t := by
  by_cases h : (kv.1 == name) = true
  · rw [if_pos h]
    unfold lookupEquip
    rw [@List.find?_cons_of_pos (String × EquipEntry) (fun p => p.1 == name) kv t h]
    rfl
  · rw [if_neg h]
    unfold lookupEquip
    rw [@List.find?_cons_of_neg (String × EquipEntry) (fun p => p.1 == name) kv t h]

/-- Lookup skips over a prefix in which it succeeds. -/
theorem lookupEquip_append_some (name : String) (m l : EquipMap) (e : EquipEntry)
    (h : lookupEquip name m = some e) : lookupEquip name (m ++ l) = some e := by
  induction m with
  | nil => rw [lookupEquip] at h; exact absurd h (by simp)
  | cons kv t ih =>
    rw [List.cons_append, lookupEquip_cons]
    rw [lookupEquip_cons] at h
    by_cases hk : (kv.1 == name) = true
    · rw [if_pos hk] at h ⊢; exact h
    · rw [if_neg hk] at h ⊢; exact ih h

/-- Lookup passes over a prefix in which it fails. -/
theorem lookupEquip_append_none (name : String) (m l : EquipMap)
    (h : lookupEquip name m = none) : lookupEquip name (m ++ l) = lookupEquip name l := by
  induction m with
  | nil => rfl
  | cons kv t ih =>
    rw [List.cons_append, lookupEquip_cons]
    rw [lookupEquip_cons] at h
    by_cases hk : (kv.1 == name) = true
    · rw [if_pos hk] at h; exact absurd h (by simp)
    · rw [if_neg hk] at h ⊢; exact ih h

/-- Lookup through a page-reference update: only the targeted key's entry
changes, and only by appending the page. -/
theorem lookupEquip_addPageRef (name k : String) (pg : Nat) (m : EquipMap) :
    lookupEquip name (addPageRef k pg m) =
      if name = k then
        (lookupEquip name m).map
          (fun e => { e with pageReferences := e.pageReferences ++ [pg] })
      else lookupEquip name m := by
  induction m with
  | nil => by_cases h : name = k <;> simp [lookupEquip, addPageRef, h]
  | cons kv t ih =>
    show lookupEquip name
        ((if (kv.1 == k) = true
          then (kv.1, { kv.2 with pageReferences := kv.2.pageReferences ++ [pg] })
          else kv) :: addPageRef k pg t) = _
    by_cases hkv : (kv.1 == k) = true
    · rw [if_pos hkv, lookupEquip_cons, lookupEquip_cons]
      by_cases hn : (kv.1 == name) = true
      · have hkname : name = k := by
          have h1 : kv.1 = k := by simpa using hkv
          have h2 : kv.1 = name := by simpa using hn
          rw [← h2, h1]
        rw [if_pos hn, if_pos hn, if_pos hkname]
        rfl
      · rw [if_neg hn, if_neg hn, ih]
    · rw [if_neg hkv, lookupEquip_cons, lookupEquip_cons]
      by_cases hn : (kv.1 == name) = true
      · have hne : ¬ name = k := by
          intro hcontra
          apply hkv
          have h2 : kv.1 = name := by simpa using hn
          simp [h2, hcontra]
        rw [if_pos hn, if_pos hn, if_neg hne]
      · rw [if_neg hn, if_neg hn, ih]

/-- Reduction of a match step on an unseen name. -/
theorem equipStep_eq_new (page : Nat) (mt : EqMatch) (m : EquipMap)
    (hl : lookupEquip mt.name m = none) :
    equipStep page m mt = m ++ [(mt.name, ⟨mt.quantity, mt.spec, [page]⟩)] := by
  unfold equipStep
  rw [hl]

/-- Reduction of a match step on a seen name. -/
theorem equipStep_eq_seen (page : Nat) (mt : EqMatch) (m : EquipMap) (f : EquipEntry)
    (hl : lookupEquip mt.name m = some f) :
    equipStep page m mt =
      if page ∈ f.pageReferences then m else addPageRef mt.name page m := by
  unfold equipStep
  rw [hl]

/-- One match step preserves an existing entry's quantity and
specification and only grows its page references. -/
theorem equipStep_preserves (page : Nat) (mt : EqMatch) (m : EquipMap)
    (name : String) (e : EquipEntry) (h : lookupEquip name m = some e) :
    ∃ e', lookupEquip name (equipStep page m mt) = some e' ∧
      e'.quantity = e.quantity ∧ e'.specifications = e.specifications ∧
      ∀ pg ∈ e.pageReferences, pg ∈ e'.pageReferences := by
  cases hl : lookupEquip mt.name m with
  | none =>
    rw [equipStep_eq_new page mt m hl]
    exact ⟨e, lookupEquip_append_some name m _ e h, rfl, rfl, fun _ hp => hp⟩
  | some f =>
    rw [equipStep_eq_seen page mt m f hl]
    by_cases hpage : page ∈ f.pageReferences
    · rw [if_pos hpage]
      exact ⟨e, h, rfl, rfl, fun _ hp => hp⟩
    · rw [if_neg hpage, lookupEquip_addPageRef]
      by_cases hname : name = mt.name
      · rw [if_pos hname, h]
        exact ⟨{ e with pageReferences := e.pageReferences ++ [page] }, rfl, rfl, rfl,
          fun pg hpg => by simp [hpg]⟩
      · rw [if_neg hname]
        exact ⟨e, h, rfl, rfl, fun _ hp => hp⟩

/-- After processing a match, its name maps to an entry referencing the
match's page. -/
theorem equipStep_mem_self (page : Nat) (mt : EqMatch) (m : EquipMap) :
    ∃ e, lookupEquip mt.name (equipStep page m mt) = some e ∧
      page ∈ e.pageReferences := by
  cases hl : lookupEquip mt.name m with
  | none =>
    rw [equipStep_eq_new page mt m hl]
    refine ⟨⟨mt.quantity, mt.spec, [page]⟩, ?_, by simp⟩
    rw [lookupEquip_append_none _ _ _ hl, lookupEquip_cons]
    simp
  | some f =>
    rw [equipStep_eq_seen page mt m f hl]
    by_cases hpage : page ∈ f.pageReferences
    · rw [if_pos hpage]
      exact ⟨f, hl, hpage⟩
    · rw [if_neg hpage, lookupEquip_addPageRef, if_pos rfl, hl]
      exact ⟨_, rfl, by simp⟩

/-- A match step does not touch entries of other names. -/
theorem equipStep_lookup_other (page : Nat) (mt : EqMatch) (m : EquipMap)
    (name : String) (hne : name ≠ mt.name) :
    lookupEquip name (equipStep page m mt) = lookupEquip name m := by
  cases hl : lookupEquip mt.name m with
  | none =>
    rw [equipStep_eq_new page mt m hl]
    cases hm : lookupEquip name m with
    | some e =>
      rw [lookupEquip_append_some name m _ e hm]
    | none =>
      rw [lookupEquip_append_none _ _ _ hm, lookupEquip_cons]
      have hb : ¬ ((mt.name,
          (⟨mt.quantity, mt.spec, [page]⟩ : EquipEntry)).1 == name) = true := by
        simp only [beq_iff_eq]
        exact fun hcontra => hne hcontra.symm
      rw [if_neg hb]
      rfl
  | some f =>
    rw [equipStep_eq_seen page mt m f hl]
    by_cases hp : page ∈ f.pageReferences
    · rw [if_pos hp]
    · rw [if_neg hp, lookupEquip_addPageRef, if_neg hne]

/-- The match fold preserves an existing entry's quantity and
specification and only grows its page references. -/
theorem runFold_preserves (F : List (Nat × EqMatch)) :
    ∀ (m : EquipMap) (name : String) (e : EquipEntry),
      lookupEquip name m = some e →
      ∃ e', lookupEquip name
          (F.foldl (fun acc pm => equipStep pm.1 acc pm.2) m) = some e' ∧
        e'.quantity = e.quantity ∧ e'.specifications = e.specifications ∧
        ∀ pg ∈ e.pageReferences, pg ∈ e'.pageReferences := by
  induction F with
  | nil => intro m name e h; exact ⟨e, h, rfl, rfl, fun _ hp => hp⟩
  | cons pm rest ih =>
    intro m name e h
    rcases equipStep_preserves pm.1 pm.2 m name e h with ⟨e1, h1, hq1, hs1, hsub1⟩
    rcases ih _ name e1 h1 with ⟨e2, h2, hq2, hs2, hsub2⟩
    exact ⟨e2, h2, hq2.trans hq1, hs2.trans hs1, fun pg hpg => hsub2 pg (hsub1 pg hpg)⟩

/-- Every processed match's page ends up among its name's page
references. -/
theorem runFold_mem (F : List (Nat × EqMatch)) :
    ∀ (m : EquipMap) (pm : Nat × EqMatch), pm ∈ F →
      ∃ e, lookupEquip pm.2.name
          (F.foldl (fun acc q => equipStep q.1 acc q.2) m) = some e ∧
        pm.1 ∈ e.pageReferences := by
  induction F with
  | nil => intro m pm h; simp at h
  | cons q rest ih =>
    intro m pm h
    rcases List.mem_cons.mp h with rfl | hrest
    · rcases equipStep_mem_self pm.1 pm.2 m with ⟨e, he, hp⟩
      rcases runFold_preserves rest _ _ e he with ⟨e', he', _, _, hsub⟩
      exact ⟨e', he', hsub _ hp⟩
    · exact ih _ pm hrest

/-- The first match carrying a given name fixes that name's quantity and
specification for the whole fold. -/
theorem runFold_first (F : List (Nat × EqMatch)) :
    ∀ (m : EquipMap) (name : String) (q : Nat) (mu : EqMatch),
      lookupEquip name m = none →
      F.find? (fun pm => pm.2.name == name) = some (q, mu) →
      ∃ e, lookupEquip name
          (F.foldl (fun acc pm => equipStep pm.1 acc pm.2) m) = some e ∧
        e.quantity = mu.quantity ∧ e.specifications = mu.spec := by
  induction F with
  | nil => intro m name q mu _ hf; simp at hf
  | cons pm0 rest ih =>
    intro m name q mu hnone hf
    by_cases hname : (pm0.2.name == name) = true
    · rw [@List.find?_cons_of_pos (Nat × EqMatch) (fun pm => pm.2.name == name)
        pm0 rest hname] at hf
      have hpm0 : pm0 = (q, mu) := by simpa using hf
      subst hpm0
      have hmuname : mu.name = name := by simpa using hname
      have hln : lookupEquip mu.name m = none := by rw [hmuname]; exact hnone
      have hstep : lookupEquip name (equipStep q m mu) =
          some ⟨mu.quantity, mu.spec, [q]⟩ := by
        rw [equipStep_eq_new q mu m hln]
        rw [lookupEquip_append_none _ _ _ hnone, lookupEquip_cons]
        rw [if_pos (by simpa using hmuname)]
      rcases runFold_preserves rest _ name _ hstep with ⟨e, he, hq, hs, _⟩
      exact ⟨e, he, hq, hs⟩
    · rw [@List.find?_cons_of_neg (Nat × EqMatch) (fun pm => pm.2.name == name)
        pm0 rest hname] at hf
      have hne : name ≠ pm0.2.name := by
        intro hcontra
        exact hname (by simp [hcontra])
      have hkeep : lookupEquip name (equipStep pm0.1 m pm0.2) = none := by
        rw [equipStep_lookup_other _ _ _ _ hne]
        exact hnone
      exact ih _ name q mu hkeep hf

/-- A match step preserves distinctness of every entry's page
references. -/
theorem equipStep_nodup (page : Nat) (mt : EqMatch) (m : EquipMap)
    (hm : ∀ name e, lookupEquip name m = some e → e.pageReferences.Nodup) :
    ∀ name e, lookupEquip name (equipStep page m mt) = some e →
      e.pageReferences.Nodup := by
  intro name e he
  cases hl : lookupEquip mt.name m with
  | none =>
    rw [equipStep_eq_new page mt m hl] at he
    cases hm0 : lookupEquip name m with
    | some f =>
      rw [lookupEquip_append_some name m _ f hm0] at he
      exact (Option.some.inj he) ▸ hm name f hm0
    | none =>
      rw [lookupEquip_append_none _ _ _ hm0, lookupEquip_cons] at he
      by_cases hk : (mt.name == name) = true
      · rw [if_pos hk] at he
        have hee : e = ⟨mt.quantity, mt.spec, [page]⟩ := (Option.some.inj he).symm
        rw [hee]
        simp
      · rw [if_neg hk] at he
        exact absurd he (by simp [lookupEquip])
  | some f =>
    rw [equipStep_eq_seen page mt m f hl] at he
    by_cases hp : page ∈ f.pageReferences
    · rw [if_pos hp] at he
      exact hm name e he
    · rw [if_neg hp, lookupEquip_addPageRef] at he
      by_cases hk : name = mt.name
      · rw [if_pos hk] at he
        rw [hk, hl] at he
        have hee : e = { f with pageReferences := f.pageReferences ++ [page] } :=
          (Option.some.inj he).symm
        rw [hee]
        have hfnd := hm mt.name f hl
        simp [List.nodup_append, hfnd, hp]
      · rw [if_neg hk] at he
        exact hm name e he

/-- The match fold keeps every entry's page references distinct. -/
theorem runFold_nodup (F : List (Nat × EqMatch)) :
    ∀ m : EquipMap,
      (∀ name e, lookupEquip name m = some e → e.pageReferences.Nodup) →
      ∀ name e, lookupEquip name
          (F.foldl (fun acc pm => equipStep pm.1 acc pm.2) m) = some e →
        e.pageReferences.Nodup := by
  induction F with
  | nil => intro m hm name e h; exact hm name e h
  | cons pm rest ih =>
    intro m hm name e h
    exact ih _ (equipStep_nodup pm.1 pm.2 m hm) name e h

/-- The per-page equipment processing equals one fold over the flattened
page-tagged match list. -/
theorem processEquipmentPages_eq_flat (pages : List (List EqMatch)) :
    processEquipmentPages pages =
      (flatMatches pages).foldl (fun acc pm => equipStep pm.1 acc pm.2) [] := by
  unfold processEquipmentPages flatMatches extractEquipmentSpecs
  rw [List.foldl_flatten, List.foldl_map]
  congr 1
  funext m pr
  rw [List.foldl_map]

/-- A match of page i (0-based) appears page-tagged in the flattened
match list. -/
theorem mem_flatMatches (pages : List (List EqMatch)) (i : Nat) (ms : List EqMatch)
    (mt : EqMatch) (hi : pages[i]? = some ms) (hmt : mt ∈ ms) :
    (i + 1, mt) ∈ flatMatches pages := by
  unfold flatMatches
  rw [List.mem_flatten]
  refine ⟨ms.map (fun m => (i + 1, m)), ?_, List.mem_map_of_mem _ hmt⟩
  rw [List.mem_map]
  refine ⟨(i, ms), ?_, rfl⟩
  rw [List.mem_enum_iff_getElem?]
  exact hi

/-- C1: whenever page i+1 (1-based) of a document matches the equipment
pattern with quantity n and a name, the final equipment map holds an
entry for that name whose page references include i+1 and stay
duplicate-free, and whose quantity and specification are those of the
document's first sighting of the name — so the first sighting fixes them
and later sightings only add new page references. -/
theorem equipment_extraction_spec :
    ∀ (pages : List (List EqMatch)) (i : Nat) (ms : List EqMatch) (mt : EqMatch),
      pages[i]? = some ms → mt ∈ ms →
      ∃ e, lookupEquip mt.name (processEquipmentPages pages) = some e ∧
        (i + 1) ∈ e.pageReferences ∧ e.pageReferences.Nodup ∧
        ∃ q mu, (flatMatches pages).find? (fun pm => pm.2.name == mt.name)
            = some (q, mu) ∧
          e.quantity = mu.quantity ∧ e.specifications = mu.spec := by
  intro pages i ms mt hi hmt
  have hmem := mem_flatMatches pages i ms mt hi hmt
  have hfind : ∃ r, (flatMatches pages).find? (fun pm => pm.2.name == mt.name)
      = some r := by
    apply Option.isSome_iff_exists.mp
    rw [List.find?_isSome]
    exact ⟨(i + 1, mt), hmem, by simp⟩
  rcases hfind with ⟨⟨q, mu⟩, hfq⟩
  rw [processEquipmentPages_eq_flat]
  rcases runFold_mem (flatMatches pages) [] (i + 1, mt) hmem with ⟨e1, he1, hp1⟩
  rcases runFold_first (flatMatches pages) [] mt.name q mu rfl hfq
    with ⟨e2, he2, hq2, hs2⟩
  have hee : e1 = e2 := by
    have := he1.symm.trans he2
    exact Option.some.inj this
  have hnd := runFold_nodup (flatMatches pages) []
    (by intro name e h; exact absurd h (by simp [lookupEquip])) mt.name e1 he1
  exact ⟨e1, he1, hp1, hnd, q, mu, hfq, by rw [hee]; exact hq2, by rw [hee]; exact hs2⟩

/-- Witness for C1: two pages both matching "Speaker"; the entry keeps
the first page's quantity and specification, references both pages with
no duplicates. -/
theorem equipment_extraction_spec_witness :
    ∃ e, lookupEquip "Speaker"
        (processEquipmentPages [[⟨3, "Speaker", "active"⟩], [⟨5, "Speaker", "passive"⟩]])
        = some e ∧
      (1 + 1) ∈ e.pageReferences ∧ e.pageReferences.Nodup ∧
      ∃ q mu,
        (flatMatches [[⟨3, "Speaker", "active"⟩], [⟨5, "Speaker", "passive"⟩]]).find?
          (fun pm => pm.2.name == "Speaker") = some (q, mu) ∧
        e.quantity = mu.quantity ∧ e.specifications = mu.spec :=
  equipment_extraction_spec [[⟨3, "Speaker", "active"⟩], [⟨5, "Speaker", "passive"⟩]]
    1 [⟨5, "Speaker", "passive"⟩] ⟨5, "Speaker", "passive"⟩ rfl (by simp)

end VenueCore
